import Mathlib

/-!
# Verification of the diff-parsing and review-assembly core of
# `gemini-review-pull-request`

This file gives a shallow embedding of the Go functions `parseDiff`,
`createPrompt` and `analyzeCodeUsingGemini` from `main.go`, together with
theorems settling the specification claims about them.

Modelling conventions:
* Go strings are modelled as Lean `String`; the prefix tests
  (`strings.HasPrefix`) and prefix stripping (`strings.TrimPrefix`) are
  modelled on the underlying character lists (`hasPre`, `trimPre`), which
  agrees with Go's byte-level comparison on the ASCII marker prefixes used
  by the parser.
* `strings.Split(diff, "\n")` is modelled by `splitLines` (structural
  recursion over the character list, so that the kernel can evaluate it).
* The external Gemini collaborator (`model.GenerateContent`) is an oracle
  parameter `gen : String → Except String GenResponse`; a response is a
  list of candidates, each with an optional content part list, exactly the
  shape the Go loop inspects.
-/

/-- The `Hunk` struct of `main.go`. -/
structure Hunk where
  Header : String
  Content : String
  Lines : List String
deriving DecidableEq, Repr

/-- The `ParsedFile` struct of `main.go`. -/
structure ParsedFile where
  Path : String
  Hunks : List Hunk
deriving DecidableEq, Repr

/-- The `Comment` struct of `main.go`. -/
structure Comment where
  Path : String
  Position : Int
  Body : String
deriving DecidableEq, Repr

/-- Model of Go `strings.HasPrefix s p`. -/
def hasPre (s p : String) : Bool :=
  p.data.isPrefixOf s.data

/-- Model of Go `strings.TrimPrefix s p`. -/
def trimPre (s p : String) : String :=
  if hasPre s p then ⟨s.data.drop p.length⟩ else s

/-- The mutable scan state of `parseDiff`: the accumulated result slice,
the file currently being built (or none) and the hunk currently being
built (or none). -/
structure ParseState where
  files : List ParsedFile
  currentFile : Option ParsedFile
  currentHunk : Option Hunk
deriving DecidableEq, Repr

/-- One iteration of the `for _, line := range lines` loop of `parseDiff`,
with the prefix dispatch in the source's order. -/
def processLine (st : ParseState) (line : String) : ParseState :=
  if hasPre line "diff --git" then
    match st.currentFile with
    | some f => { st with files := st.files ++ [f], currentFile := some ⟨"", []⟩ }
    | none => { st with currentFile := some ⟨"", []⟩ }
  else if hasPre line "--- a/" then
    match st.currentFile with
    | some f => { st with currentFile := some { f with Path := trimPre line "--- a/" } }
    | none => st
  else if hasPre line "+++ b/" then
    match st.currentFile with
    | some f => { st with currentFile := some { f with Path := trimPre line "+++ b/" } }
    | none => st
  else if hasPre line "@@" then
    match st.currentFile with
    | some f =>
      match st.currentHunk with
      | some h =>
        { st with currentFile := some { f with Hunks := f.Hunks ++ [h] },
                  currentHunk := some ⟨line, "", []⟩ }
      | none => { st with currentHunk := some ⟨line, "", []⟩ }
    | none => st
  else
    match st.currentHunk with
    | some h =>
      { st with currentHunk := some ⟨h.Header, h.Content ++ line ++ "\n", h.Lines ++ [line]⟩ }
    | none => st

/-- The body of `parseDiff` after the input has been split into lines:
fold the scan loop over the lines, then flush the open file (the source
appends `*currentFile` to `files` at end of input; it does not append the
open hunk). -/
def parseDiffLines (lines : List String) : List ParsedFile :=
  let st := lines.foldl processLine ⟨[], none, none⟩
  match st.currentFile with
  | some f => st.files ++ [f]
  | none => st.files

/-- Splitting a character list at every newline, Go `strings.Split`
semantics (the empty input yields one empty field, a trailing newline
yields a trailing empty field). -/
def splitNlAux : List Char → List (List Char)
  | [] => [[]]
  | c :: cs =>
    if c = '\n' then [] :: splitNlAux cs
    else
      match splitNlAux cs with
      | [] => [[c]]
      | l :: ls => (c :: l) :: ls

/-- Model of Go `strings.Split(s, "\n")`. -/
def splitLines (s : String) : List String :=
  (splitNlAux s.data).map fun l => ⟨l⟩

/-- The Go function `parseDiff`: it always returns `(files, nil)`, so the
error component of the model is always `none`. -/
def parseDiff (diff : String) : List ParsedFile × Option String :=
  (parseDiffLines (splitLines diff), none)

/-- The Go function `createPrompt`: the fixed review-instruction template
of `main.go`, filled with the file path, PR title, PR description and the
hunk's joined content. -/
def createPrompt (file : ParsedFile) (hunk : Hunk) (title description : String) : String :=
  "\nYour task is to review pull requests. Instructions:\n- Provide comments and suggestions ONLY if there is something to improve.\n- Focus on bugs, security issues, and performance problems.\n- Avoid generic comments and highlight critical issues.\n\nFile: "
    ++ file.Path
    ++ "\nPull Request Title: "
    ++ title
    ++ "\nPull Request Description: "
    ++ description
    ++ "\n\nDiff Context:\n"
    ++ hunk.Content
    ++ "\n"

/-- One part of a Gemini candidate's content, the four cases the Go
`switch p := part.(type)` handles plus the unhandled default (which only
logs and contributes nothing to the text). -/
inductive GenPart where
  | text (s : String)
  | functionCall (name : String)
  | executableCode (codeText : String)
  | codeExecutionResult (result : String)
  | unhandled
deriving DecidableEq, Repr

/-- The text a single part contributes to `fullText` in
`analyzeCodeUsingGemini`. -/
def partText : GenPart → String
  | .text s => s
  | .functionCall n => "[Function call: " ++ n ++ "]"
  | .executableCode t => t
  | .codeExecutionResult r => "[Execution result: " ++ r ++ "]"
  | .unhandled => ""

/-- A Gemini candidate: `candidate.Content` is nil (`none`) or a list of
parts. -/
structure Candidate where
  content : Option (List GenPart)
deriving DecidableEq, Repr

/-- A Gemini response: the `response.Candidates` slice. -/
structure GenResponse where
  candidates : List Candidate
deriving DecidableEq, Repr

/-- Decidable equality for `Except`, used to evaluate the embedding on
concrete inputs. -/
instance {ε α : Type} [DecidableEq ε] [DecidableEq α] : DecidableEq (Except ε α) := fun x y =>
  match x, y with
  | .ok a, .ok b =>
    if h : a = b then .isTrue (by rw [h]) else .isFalse fun hc => h (Except.ok.inj hc)
  | .error a, .error b =>
    if h : a = b then .isTrue (by rw [h]) else .isFalse fun hc => h (Except.error.inj hc)
  | .ok _, .error _ => .isFalse fun hc => Except.noConfusion hc
  | .error _, .ok _ => .isFalse fun hc => Except.noConfusion hc

/-- The `fullText` accumulated over a candidate's parts
(`fullText += ...` per part, starting from the empty string). -/
def fullTextOfParts (parts : List GenPart) : String :=
  parts.foldl (fun acc p => acc ++ partText p) ""

/-- The inner candidate loop of `analyzeCodeUsingGemini` for one hunk's
response: one `Comment` per candidate with non-nil content, stamped with
the current file's path and position 0, in candidate order. -/
def hunkComments (path : String) (resp : GenResponse) : List Comment :=
  resp.candidates.filterMap fun c =>
    match c.content with
    | some parts => some ⟨path, 0, fullTextOfParts parts⟩
    | none => none

/-- The per-file hunk loop of `analyzeCodeUsingGemini`: call the
collaborator once per hunk in order; on error return the wrapped error
immediately, otherwise append that hunk's comments to the accumulator. -/
def processHunks (gen : String → Except String GenResponse) (file : ParsedFile)
    (title description : String) : List Hunk → List Comment → Except String (List Comment)
  | [], acc => .ok acc
  | h :: hs, acc =>
    match gen (createPrompt file h title description) with
    | .error e => .error ("error analyzing code with Gemini: " ++ e)
    | .ok resp => processHunks gen file title description hs (acc ++ hunkComments file.Path resp)

/-- The outer file loop of `analyzeCodeUsingGemini`. -/
def analyzeFiles (gen : String → Except String GenResponse) (title description : String) :
    List ParsedFile → List Comment → Except String (List Comment)
  | [], acc => .ok acc
  | f :: fs, acc =>
    match processHunks gen f title description f.Hunks acc with
    | .error e => .error e
    | .ok acc2 => analyzeFiles gen title description fs acc2

/-- The Go function `analyzeCodeUsingGemini`, with the external Gemini
call (`model.GenerateContent`) abstracted as the oracle `gen`; client
construction and model selection are external I/O outside this core. -/
def analyzeCodeUsingGemini (parsedFiles : List ParsedFile) (title description : String)
    (gen : String → Except String GenResponse) : Except String (List Comment) :=
  analyzeFiles gen title description parsedFiles []

/-- The prompts of one file, in hunk order. -/
def filePrompts (title description : String) (f : ParsedFile) : List String :=
  f.Hunks.map fun h => createPrompt f h title description

/-- All prompts of a run, in file-then-hunk encounter order. -/
def allPrompts (title description : String) (fs : List ParsedFile) : List String :=
  fs.flatMap (filePrompts title description)

/-- The first collaborator error along a prompt list, if any. -/
def firstGenError (gen : String → Except String GenResponse) : List String → Option String
  | [] => none
  | p :: ps =>
    match gen p with
    | .error e => some e
    | .ok _ => firstGenError gen ps

/-- The comments one hunk contributes when the collaborator does not fail
on it (and nothing when it does). -/
def okHunkComments (gen : String → Except String GenResponse) (f : ParsedFile)
    (title description : String) (h : Hunk) : List Comment :=
  match gen (createPrompt f h title description) with
  | .ok resp => hunkComments f.Path resp
  | .error _ => []

/-- Reconstruction of a single file block from parse output, following
the spec's words for the idempotence property: the file's headers
followed by each hunk's header and joined content. -/
def reconstructFile (f : ParsedFile) : String :=
  "diff --git a/" ++ f.Path ++ " b/" ++ f.Path ++ "\n--- a/" ++ f.Path ++ "\n+++ b/" ++ f.Path
    ++ "\n"
    ++ f.Hunks.foldl (fun acc h => acc ++ h.Header ++ "\n" ++ h.Content) ""

/-- C1: the claim says that when `parseDiff` finalizes the file in
progress (at a new `diff --git` line or at end of input) any open hunk is
first appended to that file, so the last hunk is never dropped. The code
does neither: at end of input only the open file is appended (first
conjunct: the single hunk of the diff is missing from the result), and at
a `diff --git` line the file is appended without the open hunk (second
conjunct: the first file ends up with no hunks). -/
theorem C1_open_hunk_not_flushed :
    (parseDiff "diff --git a/a.go b/a.go\n@@ -1 +1 @@\n+x\n").1 = [⟨"", []⟩] ∧
    parseDiffLines ["diff --git 1", "@@ h", "z", "diff --git 2"] = [⟨"", []⟩, ⟨"", []⟩] :=
  ⟨by decide, by decide⟩

/-- C2: on the spec's worked example the claim expects one `ParsedFile`
with path `x.go` and one hunk with header `@@ -1,2 +1,2 @@` and lines
`-old`, `+new`; the code instead returns the file with an empty hunk
sequence, because the open hunk is not flushed at end of input. -/
theorem C2_example_loses_hunk :
    (parseDiff "diff --git a/x.go b/x.go\n--- a/x.go\n+++ b/x.go\n@@ -1,2 +1,2 @@\n-old\n+new\n").1
      = [⟨"x.go", []⟩] ∧
    ([⟨"x.go", []⟩] : List ParsedFile)
      ≠ [⟨"x.go", [⟨"@@ -1,2 +1,2 @@", "-old\n+new\n", ["-old", "+new"]⟩]⟩] :=
  ⟨by decide, by decide⟩

/-- C3: `parseDiff` is total and its error component is always `nil`:
for every input string, including malformed diff text, it returns a list
of parsed files and no error. -/
theorem C3_parseDiff_never_errors (s : String) : (parseDiff s).2 = none := rfl

/-- C8: the claim says re-parsing the reconstructed content of a single
well-formed file block yields the same hunk count and line content. On a
block with two hunks the original parse keeps only the first hunk (the
second is dropped at end of input), and re-parsing its reconstruction
drops that one too, leaving zero hunks: the hunk count shrinks at every
round trip. -/
theorem C8_reparse_not_idempotent :
    (parseDiff "diff --git a/x.go b/x.go\n--- a/x.go\n+++ b/x.go\n@@ -1 +1 @@\n-a\n+b\n@@ -2 +2 @@\n-c\n+d\n").1
      = [⟨"x.go", [⟨"@@ -1 +1 @@", "-a\n+b\n", ["-a", "+b"]⟩]⟩] ∧
    (parseDiff (reconstructFile ⟨"x.go", [⟨"@@ -1 +1 @@", "-a\n+b\n", ["-a", "+b"]⟩]⟩)).1
      = [⟨"x.go", []⟩] :=
  ⟨by decide, by decide⟩

/-- C9 counterexample: a completed `Hunk` handed to consumers can have an
empty `Lines` sequence — two adjacent `@@` markers close the first hunk
before any content line was added, and it is returned with `Lines = []`. -/
theorem C9_empty_lines_hunk_emitted :
    (parseDiff "diff --git a/x b/x\n@@ h1\n@@ h2\n").1 = [⟨"", [⟨"@@ h1", "", []⟩]⟩] ∧
    (⟨"@@ h1", "", []⟩ : Hunk).Lines = [] :=
  ⟨by decide, rfl⟩

/-- C4 counterexample: a `ParsedFile` with empty path and one hunk is not
skipped by the assembly loop — the collaborator is invoked and its
feedback becomes a comment stamped with the empty path, so the result is
not the empty comment list the claimed skip would produce. -/
theorem C4_empty_path_not_skipped :
    analyzeCodeUsingGemini [⟨"", [⟨"@@ h", "x\n", ["x"]⟩]⟩] "t" "d"
        (fun _ => .ok ⟨[⟨some [.text "FEEDBACK"]⟩]⟩)
      = .ok [⟨"", 0, "FEEDBACK"⟩] ∧
    (Except.ok [(⟨"", 0, "FEEDBACK"⟩ : Comment)] : Except String (List Comment))
      ≠ .ok [] :=
  ⟨by decide, by decide⟩

/-- C4 (amended): a `ParsedFile` whose hunk sequence is empty contributes
nothing to assembly — removing it from the input leaves the result
unchanged, for every collaborator (so in particular the collaborator is
never consulted for it); the empty-path skip claimed by the spec does not
exist in the code. -/
theorem C4_no_hunk_file_skipped (gen : String → Except String GenResponse)
    (t d : String) (f : ParsedFile) (fs : List ParsedFile) (h : f.Hunks = []) :
    analyzeCodeUsingGemini (f :: fs) t d gen = analyzeCodeUsingGemini fs t d gen := by
  simp [analyzeCodeUsingGemini, analyzeFiles, h, processHunks]

/-- C4 witness: a hunk-less file in front of the input changes nothing,
even for a collaborator that fails on every prompt. -/
theorem C4_no_hunk_file_skipped_witness :
    analyzeCodeUsingGemini [⟨"r2.txt", []⟩] "t" "d" (fun _ => .error "boom")
      = analyzeCodeUsingGemini [] "t" "d" (fun _ => .error "boom") :=
  C4_no_hunk_file_skipped _ _ _ _ _ rfl

/-- Characterisation of the per-file hunk loop: it returns the wrapped
first collaborator error along this file's prompts, or the accumulator
followed by each hunk's comments in hunk order. -/
lemma processHunks_spec (gen : String → Except String GenResponse) (f : ParsedFile)
    (t d : String) (hs : List Hunk) (acc : List Comment) :
    processHunks gen f t d hs acc =
      match firstGenError gen (hs.map fun h => createPrompt f h t d) with
      | some e => .error ("error analyzing code with Gemini: " ++ e)
      | none => .ok (acc ++ hs.flatMap (okHunkComments gen f t d)) := by
  induction hs generalizing acc with
  | nil => simp [processHunks, firstGenError]
  | cons h hs ih =>
    cases hgen : gen (createPrompt f h t d) with
    | error e =>
      simp [processHunks, hgen, firstGenError]
    | ok resp =>
      simp only [processHunks, hgen, List.map_cons, firstGenError, List.flatMap_cons]
      rw [ih]
      cases firstGenError gen (hs.map fun h => createPrompt f h t d) with
      | some e => rfl
      | none => simp [okHunkComments, hgen, List.append_assoc]

/-- The first error along concatenated prompt lists. -/
lemma firstGenError_append (gen : String → Except String GenResponse)
    (xs ys : List String) :
    firstGenError gen (xs ++ ys) =
      match firstGenError gen xs with
      | some e => some e
      | none => firstGenError gen ys := by
  induction xs with
  | nil => simp [firstGenError]
  | cons p ps ih =>
    simp only [List.cons_append, firstGenError]
    cases gen p with
    | error e => rfl
    | ok resp => simpa [List.append_eq] using ih

/-- Characterisation of the whole assembly loop: the wrapped first
collaborator error in file-then-hunk encounter order, or the accumulator
followed by every hunk's comments in that order. -/
lemma analyzeFiles_spec (gen : String → Except String GenResponse) (t d : String)
    (fs : List ParsedFile) (acc : List Comment) :
    analyzeFiles gen t d fs acc =
      match firstGenError gen (allPrompts t d fs) with
      | some e => .error ("error analyzing code with Gemini: " ++ e)
      | none =>
        .ok (acc ++ fs.flatMap fun f => f.Hunks.flatMap (okHunkComments gen f t d)) := by
  induction fs generalizing acc with
  | nil => simp [analyzeFiles, allPrompts, firstGenError]
  | cons f fs ih =>
    simp only [allPrompts] at ih ⊢
    simp only [analyzeFiles, List.flatMap_cons]
    rw [processHunks_spec, firstGenError_append]
    have hfp : filePrompts t d f = f.Hunks.map fun h => createPrompt f h t d := rfl
    rw [hfp]
    cases hfe : firstGenError gen (f.Hunks.map fun h => createPrompt f h t d) with
    | some e => rfl
    | none =>
      show analyzeFiles gen t d fs (acc ++ f.Hunks.flatMap (okHunkComments gen f t d)) = _
      rw [ih]
      cases firstGenError gen (fs.flatMap (filePrompts t d)) with
      | some e => rfl
      | none => simp [List.append_assoc]

/-- A collaborator that always succeeds produces no first error. -/
lemma firstGenError_ok (gen : String → GenResponse) (ps : List String) :
    firstGenError (fun p => .ok (gen p)) ps = none := by
  induction ps with
  | nil => rfl
  | cons p ps ih => simpa [firstGenError] using ih

/-- C5: when the collaborator succeeds on every prompt, assembly returns
exactly the concatenation, over files in order and over each file's hunks
in order, of the comments obtained from the collaborator's single
response per hunk — so the collaborator is applied exactly once per
(file, hunk) pair, every comment is stamped with the path of the file
being processed (`hunkComments f.Path`), and multiple feedback items from
one hunk stay together in candidate order. -/
theorem C5_assemble_order_and_paths (gen : String → GenResponse) (fs : List ParsedFile)
    (t d : String) :
    analyzeCodeUsingGemini fs t d (fun p => .ok (gen p)) =
      .ok (fs.flatMap fun f => f.Hunks.flatMap fun h =>
        hunkComments f.Path (gen (createPrompt f h t d))) := by
  unfold analyzeCodeUsingGemini
  rw [analyzeFiles_spec, firstGenError_ok]
  rfl

/-- C6: if the collaborator fails on some hunk — i.e. the prompt sequence
in encounter order has a first error `e` — the whole assembly run returns
that error (wrapped exactly as the code wraps it) and no comment list. -/
theorem C6_collaborator_error_aborts (gen : String → Except String GenResponse)
    (fs : List ParsedFile) (t d e : String)
    (h : firstGenError gen (allPrompts t d fs) = some e) :
    analyzeCodeUsingGemini fs t d gen = .error ("error analyzing code with Gemini: " ++ e) := by
  unfold analyzeCodeUsingGemini
  rw [analyzeFiles_spec, h]

/-- C6 witness: one file, one hunk, a collaborator failing with `boom`. -/
theorem C6_collaborator_error_aborts_witness :
    analyzeCodeUsingGemini [⟨"a", [⟨"@@ h", "x\n", ["x"]⟩]⟩] "t" "d" (fun _ => .error "boom")
      = .error ("error analyzing code with Gemini: " ++ "boom") :=
  C6_collaborator_error_aborts _ _ _ _ _ (by decide)

/-- Appending strings concatenates their character lists. -/
lemma data_append (s t : String) : (s ++ t).data = s.data ++ t.data := rfl

/-- A list is a Boolean prefix of itself followed by anything. -/
lemma isPrefixOf_self_append (l t : List Char) : l.isPrefixOf (l ++ t) = true := by
  induction l with
  | nil => simp [List.isPrefixOf]
  | cons c cs ih => simp [List.isPrefixOf, ih]

/-- A string marker is a prefix of itself followed by anything. -/
lemma hasPre_self_append (p r : String) : hasPre (p ++ r) p = true := by
  simp only [hasPre, data_append]
  exact isPrefixOf_self_append p.data r.data

/-- Stripping a marker from the string it prefixes leaves the remainder. -/
lemma trimPre_pre (p r : String) : trimPre (p ++ r) p = r := by
  simp only [trimPre, hasPre_self_append, if_true]
  show (⟨(p.data ++ r.data).drop p.data.length⟩ : String) = r
  rw [List.drop_left]

/-- A line that starts with none of the file markers leaves the result
slice untouched and preserves the open file's presence and path (it can
only touch hunks). -/
lemma processLine_inert (st : ParseState) (l : String)
    (h1 : hasPre l "diff --git" = false) (h2 : hasPre l "--- a/" = false)
    (h3 : hasPre l "+++ b/" = false) :
    (processLine st l).files = st.files ∧
    (processLine st l).currentFile.map ParsedFile.Path = st.currentFile.map ParsedFile.Path := by
  simp only [processLine, h1, h2, h3, Bool.false_eq_true, if_false]
  cases h4 : hasPre l "@@" with
  | true =>
    simp only [if_true]
    cases hcf : st.currentFile with
    | none => simp [hcf]
    | some f =>
      cases hch : st.currentHunk with
      | none => simp [hcf]
      | some h => simp [hcf]
  | false =>
    simp only [Bool.false_eq_true, if_false]
    cases hch : st.currentHunk with
    | none => simp
    | some h => simp

/-- Scanning any sequence of marker-free lines preserves the result slice
and the open file's presence and path. -/
lemma foldl_inert (ls : List String) (st : ParseState)
    (h : ∀ l ∈ ls, hasPre l "diff --git" = false ∧ hasPre l "--- a/" = false ∧
      hasPre l "+++ b/" = false) :
    (ls.foldl processLine st).files = st.files ∧
    (ls.foldl processLine st).currentFile.map ParsedFile.Path
      = st.currentFile.map ParsedFile.Path := by
  induction ls generalizing st with
  | nil => exact ⟨rfl, rfl⟩
  | cons l ls ih =>
    have hl := h l (by simp)
    have hstep := processLine_inert st l hl.1 hl.2.1 hl.2.2
    have hrest := ih (processLine st l) fun x hx => h x (by simp [hx])
    exact ⟨hrest.1.trans hstep.1, hrest.2.trans hstep.2⟩

/-- C7: in any file block whose header line is followed by a pre-image
path line `--- a/p1`, then a post-image path line `+++ b/p2`, then
arbitrary further lines containing no file or path markers, the parsed
file's path is `p2` with its fixed prefix stripped — the post-image path
always wins, so rename pairs collapse to the new name. -/
theorem C7_post_image_path_wins (d p1 p2 : String) (rest : List String)
    (hd : hasPre d "diff --git" = true)
    (hrest : ∀ l ∈ rest, hasPre l "diff --git" = false ∧ hasPre l "--- a/" = false ∧
      hasPre l "+++ b/" = false) :
    ∃ hs : List Hunk,
      parseDiffLines (d :: ("--- a/" ++ p1) :: ("+++ b/" ++ p2) :: rest) = [⟨p2, hs⟩] := by
  have st1 : processLine ⟨[], none, none⟩ d = ⟨[], some ⟨"", []⟩, none⟩ := by
    simp [processLine, hd]
  have st2 : processLine ⟨[], some ⟨"", []⟩, none⟩ ("--- a/" ++ p1)
      = ⟨[], some ⟨p1, []⟩, none⟩ := by
    have e1 : hasPre ("--- a/" ++ p1) "diff --git" = false := rfl
    simp [processLine, e1, hasPre_self_append, trimPre_pre]
  have st3 : processLine ⟨[], some ⟨p1, []⟩, none⟩ ("+++ b/" ++ p2)
      = ⟨[], some ⟨p2, []⟩, none⟩ := by
    have e1 : hasPre ("+++ b/" ++ p2) "diff --git" = false := rfl
    have e2 : hasPre ("+++ b/" ++ p2) "--- a/" = false := rfl
    simp [processLine, e1, e2, hasPre_self_append, trimPre_pre]
  have hfold := foldl_inert rest ⟨[], some ⟨p2, []⟩, none⟩ hrest
  simp only [parseDiffLines, List.foldl_cons, st1, st2, st3]
  obtain ⟨hfiles, hpath⟩ := hfold
  cases hcf : (rest.foldl processLine ⟨[], some ⟨p2, []⟩, none⟩).currentFile with
  | none => rw [hcf] at hpath; simp at hpath
  | some f =>
    rw [hcf] at hpath
    have hfp : f.Path = p2 := by simpa using hpath
    refine ⟨f.Hunks, ?_⟩
    show (rest.foldl processLine ⟨[], some ⟨p2, []⟩, none⟩).files ++ [f] = [⟨p2, f.Hunks⟩]
    rw [hfiles]
    obtain ⟨fp, fh⟩ := f
    have hfp2 : fp = p2 := hfp
    subst hfp2
    rfl

/-- C7 witness: a concrete rename block `--- a/r.txt`, `+++ b/r2.txt`
resolves to path `r2.txt`. -/
theorem C7_post_image_path_wins_witness :
    ∃ hs : List Hunk,
      parseDiffLines
          ["diff --git a/r.txt b/r2.txt", "--- a/" ++ "r.txt", "+++ b/" ++ "r2.txt", ""]
        = [⟨"r2.txt", hs⟩] :=
  C7_post_image_path_wins "diff --git a/r.txt b/r2.txt" "r.txt" "r2.txt" [""]
    (by decide) (by decide)

/-- A hunk whose header carries the `@@` marker. -/
def hunkHeaderOK (h : Hunk) : Prop := hasPre h.Header "@@" = true

/-- A file all of whose hunks carry the `@@` marker. -/
def fileOK (f : ParsedFile) : Prop := ∀ h ∈ f.Hunks, hunkHeaderOK h

/-- The scan invariant: finished files, the open file and the open hunk
all carry `@@` headers. -/
def stateOK (st : ParseState) : Prop :=
  (∀ f ∈ st.files, fileOK f) ∧
  (∀ f, st.currentFile = some f → fileOK f) ∧
  (∀ h, st.currentHunk = some h → hunkHeaderOK h)

/-- Each scan step preserves the header invariant: a hunk is only ever
created at an `@@` line, with that line as its header, and later steps
never change a hunk's header. -/
lemma fileOK_empty (p : String) : fileOK ⟨p, []⟩ := by
  intro h hh
  simp at hh

lemma processLine_ok (st : ParseState) (l : String) (hok : stateOK st) :
    stateOK (processLine st l) := by
  obtain ⟨hfiles, hcur, hhunk⟩ := hok
  unfold processLine
  split
  next h1 =>
    split
    next f hcf =>
      refine ⟨?_, ?_, hhunk⟩
      · intro g hg
        rcases List.mem_append.mp hg with hg | hg
        · exact hfiles g hg
        · rw [List.mem_singleton] at hg; rw [hg]; exact hcur f hcf
      · intro g hg
        injection hg with hg
        subst hg
        exact fileOK_empty ""
    next hcf =>
      refine ⟨hfiles, ?_, hhunk⟩
      intro g hg
      injection hg with hg
      subst hg
      exact fileOK_empty ""
  next h1 =>
    split
    next h2 =>
      split
      next f hcf =>
        refine ⟨hfiles, ?_, hhunk⟩
        intro g hg
        injection hg with hg
        subst hg
        intro h hh
        exact hcur f hcf h hh
      next hcf => exact ⟨hfiles, hcur, hhunk⟩
    next h2 =>
      split
      next h3 =>
        split
        next f hcf =>
          refine ⟨hfiles, ?_, hhunk⟩
          intro g hg
          injection hg with hg
          subst hg
          intro h hh
          exact hcur f hcf h hh
        next hcf => exact ⟨hfiles, hcur, hhunk⟩
      next h3 =>
        split
        next h4 =>
          split
          next f hcf =>
            split
            next hk hch =>
              refine ⟨hfiles, ?_, ?_⟩
              · intro g hg
                injection hg with hg
                subst hg
                intro h hh
                rcases List.mem_append.mp hh with hh | hh
                · exact hcur f hcf h hh
                · rw [List.mem_singleton] at hh; rw [hh]; exact hhunk hk hch
              · intro h hh
                injection hh with hh
                subst hh
                exact h4
            next hch =>
              refine ⟨hfiles, hcur, ?_⟩
              intro h hh
              injection hh with hh
              subst hh
              exact h4
          next hcf => exact ⟨hfiles, hcur, hhunk⟩
        next h4 =>
          split
          next hk hch =>
            refine ⟨hfiles, hcur, ?_⟩
            intro h hh
            injection hh with hh
            subst hh
            exact hhunk hk hch
          next hch => exact ⟨hfiles, hcur, hhunk⟩

/-- Scanning preserves the header invariant. -/
lemma foldl_ok (ls : List String) (st : ParseState) (hok : stateOK st) :
    stateOK (ls.foldl processLine st) := by
  induction ls generalizing st with
  | nil => exact hok
  | cons l ls ih => exact ih _ (processLine_ok _ _ hok)

/-- A string carrying the `@@` marker is non-empty. -/
lemma ne_empty_of_atat (x : String) (h : hasPre x "@@" = true) : x ≠ "" := by
  intro he
  rw [he] at h
  exact absurd h (by decide)

/-- C9 (amended): every hunk of every file returned by `parseDiff` has a
header that begins with `@@`, and is hence non-empty; the `Lines`
sequence of a completed hunk, however, can be empty (see the
counterexample). -/
theorem C9_header_invariant (s : String) (f : ParsedFile) (hk : Hunk)
    (hf : f ∈ (parseDiff s).1) (hh : hk ∈ f.Hunks) :
    hasPre hk.Header "@@" = true ∧ hk.Header ≠ "" := by
  have hok : stateOK ((splitLines s).foldl processLine ⟨[], none, none⟩) := by
    refine foldl_ok _ _ ⟨?_, ?_, ?_⟩
    · intro f hf; simp at hf
    · intro f hf; simp at hf
    · intro h hh; simp at hh
  have hfok : fileOK f := by
    have hmem : f ∈ parseDiffLines (splitLines s) := hf
    simp only [parseDiffLines] at hmem
    cases hcf : ((splitLines s).foldl processLine ⟨[], none, none⟩).currentFile with
    | none =>
      rw [hcf] at hmem
      exact hok.1 f hmem
    | some g =>
      rw [hcf] at hmem
      rcases List.mem_append.mp hmem with hm | hm
      · exact hok.1 f hm
      · rw [List.mem_singleton] at hm; subst hm; exact hok.2.1 f hcf
  have hpre := hfok hk hh
  exact ⟨hpre, ne_empty_of_atat _ hpre⟩

/-- C9 amended witness: the hunk kept from a concrete diff satisfies the
header invariant. -/
theorem C9_header_invariant_witness :
    hasPre (⟨"@@ h", "z\n", ["z"]⟩ : Hunk).Header "@@" = true ∧
    (⟨"@@ h", "z\n", ["z"]⟩ : Hunk).Header ≠ "" :=
  C9_header_invariant "diff --git a/x b/x\n@@ h\nz\n@@ h2\n" ⟨"", [⟨"@@ h", "z\n", ["z"]⟩]⟩
    ⟨"@@ h", "z\n", ["z"]⟩ (by decide) (by decide)

/-- C10: a `diff --git` line never closes or resets the open hunk (first
conjunct, for every state and every such line); concretely, a hunk opened
in one file block keeps accumulating lines across the next `diff --git`
line, is attached by the next `@@` line to the newly opened file rather
than the file it started in, and a hunk still open at end of input is
dropped entirely (second conjunct: `x` was read inside the first block
and `y` after the second header, yet the hunk lands in the second file;
the first file has no hunks, and the trailing hunk `@@ h2` is gone). -/
theorem C10_diff_git_preserves_open_hunk :
    (∀ (st : ParseState) (line : String), hasPre line "diff --git" = true →
      (processLine st line).currentHunk = st.currentHunk) ∧
    parseDiffLines ["diff --git f1", "@@ h1", "x", "diff --git f2", "y", "@@ h2"]
      = [⟨"", []⟩, ⟨"", [⟨"@@ h1", "x\ny\n", ["x", "y"]⟩]⟩] := by
  constructor
  · intro st line hl
    simp only [processLine, hl, if_true]
    cases st.currentFile <;> rfl
  · decide

/-- C10 witness: a `diff --git` line leaves a concrete open hunk open. -/
theorem C10_diff_git_preserves_open_hunk_witness :
    (processLine ⟨[], some ⟨"f1", []⟩, some ⟨"@@ hh", "w\n", ["w"]⟩⟩
        "diff --git a/q b/q").currentHunk
      = some ⟨"@@ hh", "w\n", ["w"]⟩ :=
  C10_diff_git_preserves_open_hunk.1 _ _ (by decide)
